import Mathlib

/-!
Verification development for the lsmlib storage engine (Rust).

The Rust sources are shallowly embedded: keys and values (`Vec<u8>`) become
`List Nat` with the lexicographic order (matching `Ord` on byte slices),
`BTreeMap` becomes a sorted association list, `HashMap` an association list
with distinct keys, and file contents become lists of decoded records.
`u64`/`u32` quantities are modelled as `Nat` (no operation here relies on
wrap-around).  Fallible operations return `Except` / pair an error option
with the post-state.  Two source files (`src/disk/format.rs`,
`src/disk/wal.rs`) are declared in `src/disk/mod.rs` but are not present in
the source tree; the definitions that stand in for them are marked
`Modelled from the spec:` in their doc comments.
-/

namespace LsmLib

/-- Keys and values are opaque byte strings (`Vec<u8>`); bytes are `Nat` and
the order on byte strings is the lexicographic order, as for Rust slices. -/
abbrev Bytes := List Nat

/-- Library error kinds (src/error.rs `LSMLibError`); only the variants the
verified operations can surface are embedded, plus `ioError` standing for the
`Io(..)` variant used to model a failing file operation. -/
inductive LSMLibError where
  | keyIsTooLarge
  | valueIsTooLarge
  | ioError
  deriving Repr, DecidableEq

/-- Data record as decoded from disk.  Modelled from the spec: `DiskEntry` of
src/disk/format.rs is absent from src/; per spec §3 a data record carries a
checksum over key‖value, a timestamp, and the key and value bytes, with
encoded size `24 + key_sz + value_sz`.  The stored checksum is the field
`crc`; the CRC32 recomputation is abstracted as an explicit function
parameter where a caller verifies checksums.  Timestamps (epoch seconds) are
modelled as the engine's monotone write counter. -/
structure DiskEntry where
  key : Bytes
  value : Bytes
  timestamp : Nat
  crc : Nat := 0
  deriving Repr, DecidableEq

/-- Encoded size of a data record: 24 header bytes plus key and value (spec
§3, used by `DiskEntry::size` callers in src/lsm.rs and src/storage.rs). -/
def DiskEntry.size (e : DiskEntry) : Nat :=
  24 + e.key.length + e.value.length

/-- Hint record.  Modelled from the spec: `HintEntry` of src/disk/format.rs is
absent from src/; per spec §3 a hint record carries timestamp, key_sz,
value_sz, offset, size and the key, and points at the paired data record in
the sibling sorted run.  The pointed-at data record is carried here as the
ghost field `points`, so that "resolving" a hint needs no file system. -/
structure HintEntry where
  key : Bytes
  timestamp : Nat
  valueSz : Nat
  offset : Nat
  size : Nat
  fileId : Nat
  points : DiskEntry
  deriving Repr, DecidableEq

/-- In-memory key-directory entry (src/keydir.rs `KeydirEntry`): file id,
offset, size and timestamp.  The data record stored at `(fileId, offset)` is
carried as the ghost field `points`, so that the record a directory entry
resolves to is available without modelling the file system. -/
structure KeydirEntry where
  fileId : Nat
  offset : Nat
  size : Nat
  timestamp : Nat
  points : DiskEntry
  deriving Repr, DecidableEq

/-- `KeydirEntry::try_from(&DiskEntry)` (src/keydir.rs lines 24-47): the entry
takes the record's file id, offset, size and timestamp.  In the embedding the
record's position is passed explicitly (the Rust `DiskEntry` carries it in
`Option` fields set at write time). -/
def KeydirEntry.ofDiskEntry (fileId offset : Nat) (e : DiskEntry) : KeydirEntry :=
  { fileId := fileId, offset := offset, size := e.size, timestamp := e.timestamp,
    points := e }

/-- `KeydirEntry::try_from(&HintEntry)` (src/keydir.rs lines 49-66). -/
def KeydirEntry.ofHintEntry (h : HintEntry) : KeydirEntry :=
  { fileId := h.fileId, offset := h.offset, size := h.size, timestamp := h.timestamp,
    points := h.points }

/-- `HintEntry::from(&DiskEntry)` as used by `DiskStorage::set` and the
compaction worker: one hint per data record, same key/timestamp, value_sz from
the record, offset/size of the record in its run.  Modelled from the spec
(src/disk/format.rs absent): spec §3, §4.3. -/
def HintEntry.ofDiskEntry (fileId offset : Nat) (e : DiskEntry) : HintEntry :=
  { key := e.key, timestamp := e.timestamp, valueSz := e.value.length,
    offset := offset, size := e.size, fileId := fileId, points := e }

/-! ### Key directory (src/keydir.rs, `HashmapKeydir`)

The `HashMap<Vec<u8>, KeydirEntry>` is embedded as an association list with
distinct keys; iteration order of the hash map is unspecified in Rust, and no
verified property depends on it. -/

/-- The key directory: association list from key bytes to directory entry. -/
abbrev Keydir := List (Bytes × KeydirEntry)

/-- `HashmapKeydir::get` (src/keydir.rs line 111). -/
def kdGet (kd : Keydir) (k : Bytes) : Option KeydirEntry :=
  match kd with
  | [] => none
  | (k', e) :: rest => if k' = k then some e else kdGet rest k

/-- `HashmapKeydir::put` (src/keydir.rs lines 115-124): insert-or-update; on
update the existing entry is replaced only when its timestamp is `<=` the new
entry's timestamp. -/
def kdPut (kd : Keydir) (k : Bytes) (e : KeydirEntry) : Keydir :=
  match kd with
  | [] => [(k, e)]
  | (k', e') :: rest =>
      if k' = k then
        (if e'.timestamp ≤ e.timestamp then (k', e) else (k', e')) :: rest
      else
        (k', e') :: kdPut rest k e

/-- `HashmapKeydir::remove` (src/keydir.rs lines 126-128): drop the binding
for `k` (an association list with distinct keys holds at most one). -/
def kdRemove (kd : Keydir) (k : Bytes) : Keydir :=
  match kd with
  | [] => []
  | (k', e') :: rest => if k' = k then kdRemove rest k else (k', e') :: kdRemove rest k

/-- `HashmapKeydir::keys` (src/keydir.rs lines 130-132): the (unordered) list
of keys. -/
def kdKeys (kd : Keydir) : List Bytes :=
  kd.map Prod.fst

/-- `HashmapKeydir::contains_key` (src/keydir.rs lines 151-153). -/
def kdContains (kd : Keydir) (k : Bytes) : Bool :=
  (kdGet kd k).isSome

/-! ### Memtable (src/lsm.rs)

The memtable `BTreeMap<Vec<u8>, DiskEntry>` is embedded as an association
list sorted strictly by key, which is the order `BTreeMap` iterates in. -/

/-- The memtable: association list from key to the record last written for
that key, kept sorted strictly ascending by key. -/
abbrev Memtable := List (Bytes × DiskEntry)

/-- `BTreeMap::insert`: sorted insert, replacing an existing binding. -/
def mtInsert (mt : Memtable) (k : Bytes) (e : DiskEntry) : Memtable :=
  match mt with
  | [] => [(k, e)]
  | (k', e') :: rest =>
      if k < k' then (k, e) :: (k', e') :: rest
      else if k = k' then (k, e) :: rest
      else (k', e') :: mtInsert rest k e

/-- `BTreeMap::get`. -/
def mtLookup (mt : Memtable) (k : Bytes) : Option DiskEntry :=
  match mt with
  | [] => none
  | (k', e) :: rest => if k' = k then some e else mtLookup rest k

/-- `BTreeMap::contains_key`. -/
def mtContains (mt : Memtable) (k : Bytes) : Bool :=
  (mtLookup mt k).isSome

/-- Strict key-sortedness of an association list (the `BTreeMap` invariant). -/
def SortedKeys (mt : Memtable) : Prop :=
  List.Pairwise (fun p q : Bytes × DiskEntry => p.1 < q.1) mt

/-! ### Disk storage (src/storage.rs, `DiskStorage`)

A sorted run on disk is embedded as the list of its data records paired with
their byte offsets, in file order; the set of runs is an association list
from run id to run, kept in ascending id order (`BTreeMap<u64, SSTable>`). -/

/-- A sorted run's contents: `(offset, record)` pairs in file order. -/
abbrev Run := List (Nat × DiskEntry)

/-- The storage manager's in-memory state: the registered runs keyed by id
(ascending), and the key directory (src/storage.rs `DiskStorage`). -/
structure StoreState where
  sstables : List (Nat × Run)
  keydir : Keydir
  deriving Repr, DecidableEq

/-- Result of `DiskStorage::set`: the updated key directory, the new run's
records with offsets, its hint records, and the run's byte size. -/
structure SetResult where
  keydir : Keydir
  run : Run
  hints : List HintEntry
  size : Nat
  deriving Repr, DecidableEq

/-- Loop body of `DiskStorage::set` (src/storage.rs lines 266-281): append the
record to the run at the current tail offset, append the matching hint, and
update the key directory (empty value removes, otherwise put). -/
def storeSetStep (newId : Nat) (acc : SetResult) (item : Bytes × DiskEntry) : SetResult :=
  let k := item.1
  let e := item.2
  let off := acc.size
  let hint := HintEntry.ofDiskEntry newId off e
  let kd :=
    if e.value = [] then kdRemove acc.keydir k
    else kdPut acc.keydir k (KeydirEntry.ofDiskEntry newId off e)
  { keydir := kd, run := acc.run ++ [(off, e)], hints := acc.hints ++ [hint],
    size := off + e.size }

/-- `DiskStorage::set` (src/storage.rs lines 257-290): flush the ordered
memtable into a fresh run with id `newId`, writing one hint per record and
updating the key directory as it goes. -/
def storeSet (newId : Nat) (items : Memtable) (kd : Keydir) : SetResult :=
  items.foldl (storeSetStep newId) { keydir := kd, run := [], hints := [], size := 0 }

/-- `DiskStorage::build_keydir_from_hint` (src/storage.rs lines 194-209): scan
the hint file in order; a hint with nonzero `value_sz` is put, a tombstone
hint removes the key unconditionally. -/
def buildKeydirFromHint (hints : List HintEntry) (kd : Keydir) : Keydir :=
  hints.foldl
    (fun kd h =>
      if h.valueSz ≠ 0 then kdPut kd h.key (KeydirEntry.ofHintEntry h)
      else kdRemove kd h.key)
    kd

/-- `DiskStorage::build_keydir_from_sstable` (src/storage.rs lines 211-227):
scan the run's records in file order via `SSTable::iter`; a record with empty
value removes the key, any other record is put.  `DiskEntryIter::next`
(src/disk/sstable.rs lines 128-141) decodes each record and never compares the
stored checksum against a recomputation, so the scan inserts records whether
or not their checksum matches. -/
def buildKeydirFromSSTable (fileId : Nat) (run : Run) (kd : Keydir) : Keydir :=
  run.foldl
    (fun kd oe =>
      if oe.2.value = [] then kdRemove kd oe.2.key
      else kdPut kd oe.2.key (KeydirEntry.ofDiskEntry fileId oe.1 oe.2))
    kd

/-- Ascending-id association-list insert for the run set (`BTreeMap::insert`
on `sstables`). -/
def runsInsert (runs : List (Nat × Run)) (id : Nat) (r : Run) : List (Nat × Run) :=
  match runs with
  | [] => [(id, r)]
  | (id', r') :: rest =>
      if id < id' then (id, r) :: (id', r') :: rest
      else if id = id' then (id, r) :: rest
      else (id', r') :: runsInsert rest id r

/-- `BTreeMap::get` on the run set. -/
def runsLookup (runs : List (Nat × Run)) (id : Nat) : Option Run :=
  match runs with
  | [] => none
  | (id', r) :: rest => if id' = id then some r else runsLookup rest id

/-- `DiskStorage::get` (src/storage.rs lines 234-255): look the key up in the
key directory; if present, read the run named by the entry at the entry's
offset and return the record's value (`Ok(disk_entry.value.into())`, which is
`Some` even for an empty value).  Reads past the run's decoded records return
`None`. -/
def storeGet (st : StoreState) (k : Bytes) : Option Bytes :=
  match kdGet st.keydir k with
  | none => none
  | some entry =>
      match runsLookup st.sstables entry.fileId with
      | none => none
      | some run =>
          match run.find? (fun oe => oe.1 = entry.offset) with
          | none => none
          | some oe => some oe.2.value

/-- `DiskStorage::compact_and_merge` (src/storage.rs lines 324-383): rename
the winner's `-tmp` files into place, delete every other input run and drop it
from the run set, register the winner's run afresh, and rebuild the key
directory from the winner's hint file (or by scanning its run when no hint
exists).  The winner id is the maximum input id; the winner's merged run and
hint contents are those produced by the compaction worker and are passed in
here, standing for the renamed files. -/
def compactAndMerge (st : StoreState) (ids : List Nat) (winnerRun : Run)
    (winnerHints : Option (List HintEntry)) : StoreState :=
  let winner := ids.foldl max 0
  let survivors := st.sstables.filter (fun p => p.1 ∉ ids ∨ p.1 = winner)
  let sstables := runsInsert survivors winner winnerRun
  let keydir :=
    match winnerHints with
    | some hints => buildKeydirFromHint hints st.keydir
    | none => buildKeydirFromSSTable winner winnerRun st.keydir
  { sstables := sstables, keydir := keydir }

/-! ### Engine façade (src/lsm.rs, `Lsm`) -/

/-- Configuration (src/config.rs `Config`); only the options the verified
operations consult are embedded, with the source's defaults. -/
structure Config where
  maxLogLength : Nat := 32 * 1024 * 1024
  maxKeySize : Nat := 64
  maxValueSize : Nat := 65536
  mergeRatio : Nat := 3
  mergeWindow : Nat := 10
  deriving Repr, DecidableEq

/-- Engine state (src/lsm.rs `Lsm`): the memtable, the storage manager, the
write-ahead log (as the list of records it holds, in write order), the
dirty-byte counter, and a monotone write clock standing for epoch-second
timestamps. -/
structure LsmState where
  memtable : Memtable
  store : StoreState
  wal : List DiskEntry
  dirtyBytes : Nat
  clock : Nat
  deriving Repr, DecidableEq

/-- Modelled from the spec: `WAL::write` (src/disk/wal.rs is absent from
src/).  Spec §4.9 and §7: a put rejects keys or values exceeding the
configured limits (`KeyIsTooLarge` / `ValueIsTooLarge`, src/error.rs lines
24-28) and otherwise appends one data record to the WAL, returning the
written record.  Nothing is appended on a rejection. -/
def walWrite (cfg : Config) (s : LsmState) (k v : Bytes) :
    Except LSMLibError (DiskEntry × LsmState) :=
  if k.length > cfg.maxKeySize then .error .keyIsTooLarge
  else if v.length > cfg.maxValueSize then .error .valueIsTooLarge
  else
    let e : DiskEntry := { key := k, value := v, timestamp := s.clock }
    .ok (e, { s with wal := s.wal ++ [e], clock := s.clock + 1 })

/-- `Lsm::log_mutation` (src/lsm.rs lines 195-204): write the record to the
WAL, add its size to `dirty_bytes`, then insert it into the memtable.  On a
WAL-write error nothing has been mutated. -/
def logMutation (cfg : Config) (s : LsmState) (k v : Bytes) :
    Except LSMLibError LsmState :=
  match walWrite cfg s k v with
  | .error e => .error e
  | .ok (de, s1) =>
      .ok { s1 with
              dirtyBytes := s1.dirtyBytes + de.size,
              memtable := mtInsert s1.memtable k de }

/-- Greatest registered run id (`self.sstables.keys().max().unwrap_or(0)`,
src/storage.rs line 258). -/
def maxRunId (runs : List (Nat × Run)) : Nat :=
  (runs.map Prod.fst).foldl max 0

/-- `Lsm::flush` (src/lsm.rs lines 206-248): sync the WAL; when `dirty_bytes`
exceeds `max_log_length`, take the memtable, flush it through
`DiskStorage::set` into a new run, truncate the WAL to zero and reset the
dirty counter.  If `set` fails, the taken memtable is put back and the error
is surfaced, leaving the WAL and the dirty counter untouched.  The failure of
`set` is an I/O possibility, modelled by the oracle `setFail`. -/
def lsmFlush (cfg : Config) (setFail : Option LSMLibError) (s : LsmState) :
    LsmState × Option LSMLibError :=
  if s.dirtyBytes > cfg.maxLogLength then
    let taken := s.memtable
    let s1 := { s with memtable := [] }
    match setFail with
    | some e => ({ s1 with memtable := taken }, some e)
    | none =>
        let newId := maxRunId s1.store.sstables + 1
        let res := storeSet newId taken s1.store.keydir
        ({ s1 with
             store := { sstables := runsInsert s1.store.sstables newId res.run,
                        keydir := res.keydir },
             wal := [],
             dirtyBytes := 0 },
         none)
  else (s, none)

/-- `Lsm::put` (src/lsm.rs lines 268-279): log the mutation; if that fails the
error is returned with the state untouched; otherwise flush when the dirty
counter exceeds `max_log_length`. -/
def lsmPut (cfg : Config) (setFail : Option LSMLibError) (s : LsmState)
    (k v : Bytes) : LsmState × Option LSMLibError :=
  match logMutation cfg s k v with
  | .error e => (s, some e)
  | .ok s1 =>
      if s1.dirtyBytes > cfg.maxLogLength then lsmFlush cfg setFail s1
      else (s1, none)

/-- `Lsm::contains` (src/lsm.rs lines 304-311): true when the memtable holds
the key (tombstone or not), else when the key directory holds it. -/
def lsmContains (s : LsmState) (k : Bytes) : Bool :=
  mtContains s.memtable k || kdContains s.store.keydir k

/-- `Lsm::delete` (src/lsm.rs lines 281-291): no-op when `contains` is false,
otherwise put the key with the empty value. -/
def lsmDelete (cfg : Config) (setFail : Option LSMLibError) (s : LsmState)
    (k : Bytes) : LsmState × Option LSMLibError :=
  if lsmContains s k then lsmPut cfg setFail s k [] else (s, none)

/-- `Lsm::get` (src/lsm.rs lines 293-302): the memtable answers first (an
empty value is absent); otherwise the storage manager answers. -/
def lsmGet (s : LsmState) (k : Bytes) : Option Bytes :=
  match mtLookup s.memtable k with
  | some e => if e.value = [] then none else some e.value
  | none => storeGet s.store k

/-- Rust `slice::binary_search` as called by `Lsm::list_keys`: the standard
halving loop; `some i` is produced only when the probe at `i` compares equal,
so on an unsorted slice a present key may be missed.  Each iteration shrinks
`right - left` by at least one, so a fuel of `right - left + 1` makes the
recursion structural without changing the result. -/
def rustBinarySearchGo (l : List Bytes) (k : Bytes) :
    Nat → Nat → Nat → Option Nat
  | 0, _, _ => none
  | fuel + 1, left, right =>
      if left < right then
        let mid := left + (right - left) / 2
        let probe := l.getD mid []
        if probe < k then rustBinarySearchGo l k fuel (mid + 1) right
        else if k < probe then rustBinarySearchGo l k fuel left mid
        else some mid
      else none

/-- `keys.binary_search(v.0)` over the whole slice. -/
def rustBinarySearch (l : List Bytes) (k : Bytes) : Option Nat :=
  rustBinarySearchGo l k (l.length + 1) 0 l.length

/-- Overlay loop of `Lsm::list_keys` (src/lsm.rs lines 317-325): for each
memtable binding in ascending key order, a non-empty value pushes the key onto
the end of the list; an empty value removes the key found by binary search,
when found. -/
def listKeysOverlay (keys : List Bytes) : Memtable → List Bytes
  | [] => keys
  | (k, e) :: rest =>
      if e.value ≠ [] then listKeysOverlay (keys ++ [k]) rest
      else
        match rustBinarySearch keys k with
        | some i => listKeysOverlay (keys.eraseIdx i) rest
        | none => listKeysOverlay keys rest

/-- `Lsm::list_keys` (src/lsm.rs lines 313-328): sort the key-directory keys,
then apply the memtable overlay. -/
def lsmListKeys (s : LsmState) : List Bytes :=
  listKeysOverlay (List.insertionSort (· ≤ ·) (kdKeys s.store.keydir)) s.memtable

/-! ### WAL replay at open (src/lsm.rs, `Lsm::build_memtable`) -/

/-- The WAL file as found on disk at open: the records decodable in order
from offset zero, followed by `slack` trailing bytes that do not decode to a
further record (a torn tail or leftover garbage).  Modelled from the spec:
the WAL iterator of src/disk/wal.rs (absent from src/) yields each decodable
record in order, and `Lsm::build_memtable` compares each record's stored
checksum (`crc_expected`) against the recomputed one (`crc_actual`). -/
structure WalFile where
  entries : List DiskEntry
  slack : Nat
  deriving Repr, DecidableEq

/-- Byte length of the WAL file (`log.size()`). -/
def WalFile.byteSize (w : WalFile) : Nat :=
  (w.entries.map DiskEntry.size).sum + w.slack

/-- Replay loop of `Lsm::build_memtable` (src/lsm.rs lines 165-181): records
are read in order; at the first record whose recomputed checksum differs from
the stored one the loop breaks; every successfully checked record is inserted
into the memtable and its size added to `recoverd`. -/
def replayWal (crcFn : Bytes → Bytes → Nat) :
    List DiskEntry → Memtable → Nat → Memtable × Nat
  | [], mt, recovered => (mt, recovered)
  | e :: rest, mt, recovered =>
      if crcFn e.key e.value ≠ e.crc then (mt, recovered)
      else replayWal crcFn rest (mtInsert mt e.key e) (recovered + e.size)

/-- Result of `Lsm::build_memtable`: the recovered memtable, the recovered
byte count, the WAL file after any truncation, and whether a truncation (with
its fsync, `LogFile::truncate`, src/disk/logfile.rs lines 56-64) happened. -/
structure RecoverResult where
  memtable : Memtable
  recovered : Nat
  wal : WalFile
  truncated : Bool
  deriving Repr, DecidableEq

/-- `Lsm::build_memtable` (src/lsm.rs lines 155-193): replay the WAL into a
fresh memtable, stopping at the first checksum mismatch; if the file is
longer than the recovered byte count, truncate it to that count (dropping the
failing record and everything after it) and fsync. -/
def buildMemtable (crcFn : Bytes → Bytes → Nat) (w : WalFile) : RecoverResult :=
  let good := w.entries.takeWhile (fun e => crcFn e.key e.value = e.crc)
  let mr := replayWal crcFn w.entries [] 0
  if w.byteSize > mr.2 then
    { memtable := mr.1, recovered := mr.2,
      wal := { entries := good, slack := 0 }, truncated := true }
  else
    { memtable := mr.1, recovered := mr.2, wal := w, truncated := false }

/-! ### Compaction worker (src/worker/compact.rs, `Compactor`) -/

/-- Sliding windows of `n` consecutive elements (`slice::windows(n)` over the
worker's run list): one window starting at each position, while `n` elements
remain. -/
def listWindows {α : Type} (n : Nat) : List α → List (List α)
  | [] => []
  | a :: t =>
      if n ≤ (a :: t).length ∧ 0 < n then (a :: t).take n :: listWindows n t
      else []

/-- The window predicate of `Compactor::sstable_maintenance` (src/worker/
compact.rs lines 104-108): every run after the first satisfies
`size_i * merge_ratio > size_0`. -/
def windowOk (ratio : Nat) (w : List (Nat × Nat)) : Bool :=
  (w.drop 1).all (fun p => p.2 * ratio > (w.headD (0, 0)).2)

/-- `Compactor::sstable_maintenance` (src/worker/compact.rs lines 89-117):
with `W = max(merge_window, 2)`, skip when fewer than `W` runs are known;
otherwise compact the first window of `W` consecutive runs (ascending id
order) satisfying the window predicate, returning the ids to compact, and at
most one window per call. -/
def sstableMaintenance (cfg : Config) (ss : List (Nat × Nat)) : Option (List Nat) :=
  let w := max cfg.mergeWindow 2
  if ss.length < w then none
  else ((listWindows w ss).find? (windowOk cfg.mergeRatio)).map
    (fun win => win.map Prod.fst)

/-- Worker inbox messages (src/worker/compact.rs `CompactorMessage`); the
reply channels carry no data relevant here. -/
inductive CompactorMessage where
  | newSSTable (id : Nat) (size : Nat)
  | heartBeat
  | stop
  deriving Repr, DecidableEq

/-- Ascending-id insert into the worker's `(run id, size)` map
(`BTreeMap::insert` on `Compactor::sstables`). -/
def sizesInsert (ss : List (Nat × Nat)) (id sz : Nat) : List (Nat × Nat) :=
  match ss with
  | [] => [(id, sz)]
  | (id', sz') :: rest =>
      if id < id' then (id, sz) :: (id', sz') :: rest
      else if id = id' then (id, sz) :: rest
      else (id', sz') :: sizesInsert rest id sz

/-- The compactions performed by one `Compactor::tick` (src/worker/compact.rs
lines 46-87): handle one inbox message (a new run is recorded in the size
map; `Stop` exits without maintenance), then run `sstable_maintenance` once.
The returned list holds the id windows compacted during the tick. -/
def tickCompactions (cfg : Config) (ss : List (Nat × Nat))
    (msg : CompactorMessage) : List (List Nat) :=
  match msg with
  | .newSSTable id sz => (sstableMaintenance cfg (sizesInsert ss id sz)).toList
  | .heartBeat => (sstableMaintenance cfg ss).toList
  | .stop => []

/-! ### Compaction merge iterator (src/disk/sstable.rs, `CompactMergeIter`)

The iterator owns one peekable record iterator per input run, in the order
the worker supplies them (ascending run id).  Each is embedded as the list of
its remaining records; peeking is `head?`, advancing drops the head. -/

/-- Advance the `i`-th input iterator (`self.sstables[i].borrow_mut().next()`
used for its side effect of discarding the peeked record). -/
def advanceAt (lists : List (List DiskEntry)) (i : Nat) : List (List DiskEntry) :=
  lists.set i (lists.getD i []).tail

/-- The scan loop of `CompactMergeIter::next` (src/disk/sstable.rs lines
174-196): walk the inputs in index order, maintaining the current best
`(index, key, timestamp)`.  A smaller key replaces the best outright; on an
equal key, a strictly larger timestamp discards the old best's record and
takes over, otherwise the contender's record is discarded.  The index rises
by one per iteration while the list count is fixed, so a fuel of
`lists.length` covers the whole scan structurally. -/
def mergeScanGo (lists : List (List DiskEntry)) (i : Nat)
    (top : Option (Nat × Bytes × Nat)) :
    Nat → List (List DiskEntry) × Option (Nat × Bytes × Nat)
  | 0 => (lists, top)
  | fuel + 1 =>
      if i < lists.length then
        match (lists.getD i []).head? with
        | none => mergeScanGo lists (i + 1) top fuel
        | some e =>
            match top with
            | none => mergeScanGo lists (i + 1) (some (i, e.key, e.timestamp)) fuel
            | some (ti, tk, tts) =>
                if tk > e.key then
                  mergeScanGo lists (i + 1) (some (i, e.key, e.timestamp)) fuel
                else if tk = e.key then
                  if tts < e.timestamp then
                    mergeScanGo (advanceAt lists ti) (i + 1)
                      (some (i, e.key, e.timestamp)) fuel
                  else
                    mergeScanGo (advanceAt lists i) (i + 1) (some (ti, tk, tts)) fuel
                else mergeScanGo lists (i + 1) top fuel
      else (lists, top)

/-- `CompactMergeIter::next` (src/disk/sstable.rs lines 173-202): scan for the
best head, then emit it by advancing its iterator. -/
def mergeNext (lists : List (List DiskEntry)) :
    Option DiskEntry × List (List DiskEntry) :=
  match mergeScanGo lists 0 none lists.length with
  | (lists1, none) => (none, lists1)
  | (lists1, some (i, _, _)) => ((lists1.getD i []).head?, advanceAt lists1 i)

/-- Total number of records remaining across the inputs. -/
def totalLen (lists : List (List DiskEntry)) : Nat :=
  (lists.map List.length).sum

/-- Driving `CompactMergeIter` to exhaustion (the worker's `for entry in
ms_iter` loop, src/worker/compact.rs lines 160-167).  Every emitted record
consumes at least one input record, so `totalLen` bounds the iteration; the
fuel makes that bound explicit. -/
def mergeEntriesGo (fuel : Nat) (lists : List (List DiskEntry)) : List DiskEntry :=
  match fuel with
  | 0 => []
  | fuel + 1 =>
      match mergeNext lists with
      | (none, _) => []
      | (some e, lists1) => e :: mergeEntriesGo fuel lists1

/-- The full merged output of `CompactMergeIter` over the given inputs. -/
def mergeEntries (lists : List (List DiskEntry)) : List DiskEntry :=
  mergeEntriesGo (totalLen lists) lists

/-! ### Operation sequences and specification-side maps

These definitions support the quantified claims: a client workload is a list
of `put`/`delete` calls against a freshly opened engine, and `liveMap` is the
specification-side account of the value a key holds after a workload (the
value of its most recent effective write). -/

/-- A client operation on the engine façade. -/
inductive Op where
  | put (k v : Bytes)
  | del (k : Bytes)
  deriving Repr, DecidableEq

/-- Run one operation, keeping the post-state (the single-writer engine). -/
def execOp (cfg : Config) (s : LsmState) : Op → LsmState
  | .put k v => (lsmPut cfg none s k v).1
  | .del k => (lsmDelete cfg none s k).1

/-- Run a workload left to right. -/
def execOps (cfg : Config) (s : LsmState) (ops : List Op) : LsmState :=
  ops.foldl (execOp cfg) s

/-- The engine state right after opening a fresh directory: everything empty. -/
def lsmInit : LsmState :=
  { memtable := [], store := { sstables := [], keydir := [] }, wal := [],
    dirtyBytes := 0, clock := 0 }

/-- Specification-side effect of one operation on the key-to-value map: a put
binds the key; a delete binds a present key to the empty value (the
tombstone) and leaves an absent key absent. -/
def liveStep (m : Bytes → Option Bytes) : Op → Bytes → Option Bytes
  | .put k v => fun x => if x = k then some v else m x
  | .del k => fun x =>
      if x = k then (match m k with | none => none | some _ => some []) else m x

/-- The value each key holds after a workload: `some v` with `v ≠ []` exactly
when the key's most recent operation is a put with the non-empty value `v`. -/
def liveMap (ops : List Op) : Bytes → Option Bytes :=
  ops.foldl liveStep (fun _ => none)

/-- WAL bytes an operation can append: a put writes one record for its key
and value; a delete writes at most a tombstone record for its key. -/
def opBytes : Op → Nat
  | .put k v => 24 + k.length + v.length
  | .del k => 24 + k.length

/-- Key length of an operation. -/
def opKeyLen : Op → Nat
  | .put k _ => k.length
  | .del k => k.length

/-- Value length of an operation (a delete writes the empty value). -/
def opValLen : Op → Nat
  | .put _ v => v.length
  | .del _ => 0

/-- The key-directory invariant of claim C10: every stored entry points at a
data record with a non-empty value. -/
def KeydirInv (kd : Keydir) : Prop :=
  ∀ k e, kdGet kd k = some e → e.points.value ≠ []

/-- Well-formedness of a hint file: each hint's `value_sz` is the length of
the value of the data record it points at (hints are written one-to-one with
data records, spec §3). -/
def HintsWF (hints : List HintEntry) : Prop :=
  ∀ h ∈ hints, h.valueSz = h.points.value.length

/-! ### Theorems -/

theorem kdGet_kdPut_self (kd : Keydir) (k : Bytes) (e : KeydirEntry) :
    kdGet (kdPut kd k e) k = some e ∨
      ∃ e0, kdGet kd k = some e0 ∧ ¬ e0.timestamp ≤ e.timestamp ∧
        kdGet (kdPut kd k e) k = some e0 := by
  induction kd with
  | nil => left; simp [kdPut, kdGet]
  | cons p rest ih =>
      obtain ⟨k', e'⟩ := p
      by_cases hk : k' = k
      · by_cases hts : e'.timestamp ≤ e.timestamp
        · left; simp [kdPut, kdGet, hk, hts]
        · right; exact ⟨e', by simp [kdGet, hk], hts, by simp [kdPut, kdGet, hk, hts]⟩
      · rcases ih with h | ⟨e0, h0, hts, h1⟩
        · left; simpa [kdPut, kdGet, hk] using h
        · right; exact ⟨e0, by simpa [kdGet, hk] using h0, hts,
            by simpa [kdPut, kdGet, hk] using h1⟩

theorem kdGet_kdPut_ne (kd : Keydir) (k k0 : Bytes) (e : KeydirEntry)
    (h : k0 ≠ k) : kdGet (kdPut kd k e) k0 = kdGet kd k0 := by
  have h' : k ≠ k0 := Ne.symm h
  induction kd with
  | nil => simp [kdPut, kdGet, h']
  | cons p rest ih =>
      obtain ⟨k', e'⟩ := p
      by_cases hk : k' = k
      · by_cases hts : e'.timestamp ≤ e.timestamp <;>
          simp [kdPut, kdGet, hk, h', hts]
      · by_cases hk0 : k' = k0 <;> simp [kdPut, kdGet, hk, hk0, h, ih]

theorem kdGet_kdRemove (kd : Keydir) (k k0 : Bytes) :
    kdGet (kdRemove kd k) k0 = if k0 = k then none else kdGet kd k0 := by
  induction kd with
  | nil => simp [kdRemove, kdGet]
  | cons p rest ih =>
      obtain ⟨k', e'⟩ := p
      by_cases hk : k' = k
      · by_cases hk0 : k0 = k
        · simpa [kdRemove, kdGet, hk, hk0] using ih
        · have hne : k ≠ k0 := Ne.symm hk0
          simpa [kdRemove, kdGet, hk, hk0, hne] using ih
      · by_cases hk0 : k' = k0
        · have hne : ¬ k0 = k := by rw [← hk0]; exact fun hh => hk hh
          simp [kdRemove, kdGet, hk, hk0, hne]
        · simpa [kdRemove, kdGet, hk, hk0] using ih

theorem mtLookup_mtInsert_self (mt : Memtable) (k : Bytes) (e : DiskEntry) :
    mtLookup (mtInsert mt k e) k = some e := by
  induction mt with
  | nil => simp [mtInsert, mtLookup]
  | cons p rest ih =>
      obtain ⟨k', e'⟩ := p
      by_cases h1 : k < k'
      · simp [mtInsert, mtLookup, h1]
      · by_cases h2 : k = k'
        · simp [mtInsert, mtLookup, h1, h2]
        · have h3 : k' ≠ k := Ne.symm h2
          simp [mtInsert, mtLookup, h1, h2, h3, ih]

theorem mtLookup_mtInsert_ne (mt : Memtable) (k k0 : Bytes) (e : DiskEntry)
    (h : k0 ≠ k) : mtLookup (mtInsert mt k e) k0 = mtLookup mt k0 := by
  have h' : k ≠ k0 := Ne.symm h
  induction mt with
  | nil => simp [mtInsert, mtLookup, h']
  | cons p rest ih =>
      obtain ⟨k', e'⟩ := p
      by_cases h1 : k < k'
      · simp [mtInsert, mtLookup, h1, h']
      · by_cases h2 : k = k'
        · subst h2
          simp [mtInsert, mtLookup, h1, h']
        · simp [mtInsert, mtLookup, h1, h2, ih]

theorem mtInsert_mem_keys (mt : Memtable) (k : Bytes) (e : DiskEntry) :
    ∀ q ∈ mtInsert mt k e, q.1 = k ∨ q ∈ mt := by
  induction mt with
  | nil =>
      intro q hq
      simp [mtInsert] at hq
      left; simp [hq]
  | cons p rest ih =>
      obtain ⟨k', e'⟩ := p
      intro q hq
      by_cases h1 : k < k'
      · simp [mtInsert, h1] at hq
        rcases hq with hq | hq | hq
        · left; simp [hq]
        · right; simp [hq]
        · right; simp [hq]
      · by_cases h2 : k = k'
        · simp [mtInsert, h1, h2] at hq
          rcases hq with hq | hq
          · left; rw [hq, h2]
          · right; simp [hq]
        · simp [mtInsert, h1, h2] at hq
          rcases hq with hq | hq
          · right; simp [hq]
          · rcases ih q hq with h | h
            · left; exact h
            · right; simp [h]

theorem sortedKeys_mtInsert (mt : Memtable) (k : Bytes) (e : DiskEntry)
    (h : SortedKeys mt) : SortedKeys (mtInsert mt k e) := by
  induction mt with
  | nil => simp [mtInsert, SortedKeys]
  | cons p rest ih =>
      obtain ⟨k', e'⟩ := p
      rw [SortedKeys, List.pairwise_cons] at h
      obtain ⟨hall, hrest⟩ := h
      by_cases h1 : k < k'
      · rw [mtInsert, if_pos h1, SortedKeys, List.pairwise_cons]
        constructor
        · intro q hq
          rcases List.mem_cons.mp hq with hq | hq
          · simpa [hq] using h1
          · exact lt_trans h1 (hall q hq)
        · exact List.Pairwise.cons hall hrest
      · by_cases h2 : k = k'
        · rw [mtInsert, if_neg h1, if_pos h2, SortedKeys, List.pairwise_cons]
          refine ⟨fun q hq => ?_, hrest⟩
          rw [h2]
          exact hall q hq
        · rw [mtInsert, if_neg h1, if_neg h2, SortedKeys, List.pairwise_cons]
          constructor
          · intro q hq
            rcases mtInsert_mem_keys rest k e q hq with hq' | hq'
            · have hk' : k' < k := by
                rcases lt_trichotomy k k' with hlt | heq | hgt
                · exact absurd hlt h1
                · exact absurd heq h2
                · exact hgt
              rw [hq']
              exact hk'
            · exact hall q hq'
          · exact ih hrest

/-- C1: the post-compaction key-directory rebuild scans the winner's hint file
and applies tombstone hints as unconditional removes
(`DiskStorage::build_keydir_from_hint`, called by
`DiskStorage::compact_and_merge`).  A key written at t₁ (tombstone) and again
at t₂ > t₁ (non-empty value, flushed to a run outside the compacted window)
therefore loses its directory entry when the window carrying the older
tombstone is compacted: before the compaction `get` returns the newer value,
afterwards it returns absent, refuting the claim that `get(k)` returns v₂
after any sequence of flushes and compactions. -/
theorem compaction_hint_rebuild_erases_newer_entry :
    let recNew : DiskEntry := { key := [1], value := [9, 9], timestamp := 2 }
    let tomb : DiskEntry := { key := [1], value := [], timestamp := 1 }
    let recOld : DiskEntry := { key := [1], value := [7], timestamp := 0 }
    let st : StoreState :=
      { sstables := [(1, [(0, recOld)]), (2, [(0, tomb)]), (3, [(0, recNew)])],
        keydir := [([1], KeydirEntry.ofDiskEntry 3 0 recNew)] }
    let st1 := compactAndMerge st [1, 2] [(0, tomb)]
      (some [HintEntry.ofDiskEntry 2 0 tomb])
    storeGet st [1] = some [9, 9] ∧
    tomb.timestamp < recNew.timestamp ∧
    runsLookup st1.sstables 3 = some [(0, recNew)] ∧
    kdGet st1.keydir [1] = none ∧
    storeGet st1 [1] = none := by
  decide

/-- C3: `Lsm::put` rejects a key longer than `max_key_size` with
`KeyIsTooLarge` and a value longer than `max_value_size` with
`ValueIsTooLarge`, returning the engine state unchanged (nothing appended to
the WAL, memtable untouched, dirty counter untouched). -/
theorem put_rejects_oversized_key_and_value (cfg : Config)
    (sf : Option LSMLibError) (s : LsmState) (k v : Bytes) :
    (k.length > cfg.maxKeySize →
       lsmPut cfg sf s k v = (s, some LSMLibError.keyIsTooLarge)) ∧
    (k.length ≤ cfg.maxKeySize → v.length > cfg.maxValueSize →
       lsmPut cfg sf s k v = (s, some LSMLibError.valueIsTooLarge)) := by
  constructor
  · intro hk
    simp [lsmPut, logMutation, walWrite, hk]
  · intro hk hv
    have hk1 : ¬ k.length > cfg.maxKeySize := by omega
    simp [lsmPut, logMutation, walWrite, hk1, hv]

/-- C3 witness: with the default configuration, a 65-byte key is rejected as
too large and a 65537-byte value is rejected as too large, each leaving the
fresh engine state untouched. -/
theorem put_rejects_oversized_key_and_value_witness :
    ((List.replicate 65 0).length > ({} : Config).maxKeySize ∧
       lsmPut {} none lsmInit (List.replicate 65 0) [] =
         (lsmInit, some LSMLibError.keyIsTooLarge)) ∧
    ((List.replicate 1 0).length ≤ ({} : Config).maxKeySize ∧
       (List.replicate 65537 1).length > ({} : Config).maxValueSize ∧
       lsmPut {} none lsmInit (List.replicate 1 0) (List.replicate 65537 1) =
         (lsmInit, some LSMLibError.valueIsTooLarge)) := by
  have h1 : (List.replicate 65 0).length > ({} : Config).maxKeySize := by
    rw [List.length_replicate]
    show (65 : Nat) > 64
    decide
  have h2 : (List.replicate 1 0).length ≤ ({} : Config).maxKeySize := by
    rw [List.length_replicate]
    show (1 : Nat) ≤ 64
    decide
  have h3 : (List.replicate 65537 1).length > ({} : Config).maxValueSize := by
    rw [List.length_replicate]
    show (65537 : Nat) > 65536
    decide
  exact ⟨⟨h1, (put_rejects_oversized_key_and_value {} none lsmInit _ _).1 h1⟩,
         ⟨h2, h3, (put_rejects_oversized_key_and_value {} none lsmInit _ _).2 h2 h3⟩⟩

/-- C4: on a key collision with equal timestamps, `CompactMergeIter::next`
keeps the record of the earlier (lower-id) input run and discards the later
run's record (the `else` branch at src/disk/sstable.rs line 188 fires when
the timestamps are equal), refuting the claim that the record from the later
run is kept; with strictly larger timestamp the later record does win. -/
theorem merge_equal_timestamp_prefers_earlier_run :
    let early : DiskEntry := { key := [1], value := [10], timestamp := 5 }
    let late : DiskEntry := { key := [1], value := [20], timestamp := 5 }
    mergeEntries [[early], [late]] = [early] ∧
    early.value ≠ late.value ∧
    mergeEntries [[{ key := [1], value := [10], timestamp := 4 }], [late]] = [late] := by
  decide

/-- C6: when `DiskStorage::set` fails during `Lsm::flush`, the taken memtable
is put back verbatim and the error is returned; the resulting engine state is
exactly the pre-flush state (same memtable, same WAL, same dirty counter). -/
theorem flush_failure_restores_memtable (cfg : Config) (e : LSMLibError)
    (s : LsmState) (hd : s.dirtyBytes > cfg.maxLogLength) :
    lsmFlush cfg (some e) s = (s, some e) := by
  simp [lsmFlush, hd]

/-- C6 witness: a concrete over-threshold state with a failing `set` comes
back unchanged with the error. -/
theorem flush_failure_restores_memtable_witness :
    ({ lsmInit with dirtyBytes := 1 } : LsmState).dirtyBytes >
      ({ maxLogLength := 0 } : Config).maxLogLength ∧
    lsmFlush { maxLogLength := 0 } (some LSMLibError.ioError)
        { lsmInit with dirtyBytes := 1 } =
      ({ lsmInit with dirtyBytes := 1 }, some LSMLibError.ioError) :=
  ⟨by decide, flush_failure_restores_memtable _ _ _ (by decide)⟩

/-- C7: `DiskStorage::build_keydir_from_sstable` iterates the run through
`DiskEntryIter`, which never compares the stored checksum with a
recomputation; a record whose checksum does not match is applied to the key
directory like any other, so the scan does not stop at a checksum failure and
no truncation of the run takes place, refuting the claim. -/
theorem keydir_scan_ignores_checksum_failure :
    let crcFn : Bytes → Bytes → Nat := fun k v => k.sum + v.sum
    let good : DiskEntry := { key := [1], value := [5], timestamp := 0, crc := 6 }
    let bad : DiskEntry := { key := [2], value := [9], timestamp := 1, crc := 0 }
    crcFn good.key good.value = good.crc ∧
    crcFn bad.key bad.value ≠ bad.crc ∧
    buildKeydirFromSSTable 1 [(0, good), (26, bad)] [] =
      [([1], KeydirEntry.ofDiskEntry 1 0 good),
       ([2], KeydirEntry.ofDiskEntry 1 26 bad)] := by
  decide

/-- C9 counterexample: after `put("x", v)` then `delete("x")` with no flush,
the memtable holds a tombstone for the key, the key directory does not hold
it, `get` returns absent — and `contains` returns `true`, not `false` as the
claim states (`Lsm::contains` returns true whenever the memtable holds the
key, src/lsm.rs lines 304-311). -/
theorem contains_true_for_memtable_tombstone_cex :
    let s := (lsmDelete {} none (lsmPut {} none lsmInit [1] [2]).1 [1]).1
    mtLookup s.memtable [1] = some { key := [1], value := [], timestamp := 1 } ∧
    kdGet s.store.keydir [1] = none ∧
    lsmGet s [1] = none ∧
    lsmContains s [1] = true := by
  decide

/-- C5 counterexample: put a key, flush (threshold 26 bytes), then put the
same key again; the key sits in both the key directory and the memtable with
non-empty values, and `Lsm::list_keys` pushes the memtable key without
deduplication, returning the key twice although its most recent operation is
a single non-empty put. -/
theorem list_keys_duplicate_cex :
    let ops : List Op := [Op.put [0] [7, 7], Op.put [0] [7]]
    let s := execOps { maxLogLength := 26 } lsmInit ops
    liveMap ops [0] = some [7] ∧
    lsmListKeys s = [[0], [0]] ∧
    ¬ (lsmListKeys s).Nodup := by
  decide

/-- A put whose key and value are within limits and whose record keeps the
dirty counter at or below the flush threshold takes the no-flush path: it
appends one record to the WAL, inserts it into the memtable, bumps the dirty
counter by the record size and the clock by one, and touches nothing else. -/
theorem lsmPut_no_flush (cfg : Config) (sf : Option LSMLibError) (s : LsmState)
    (k v : Bytes) (hk : ¬ k.length > cfg.maxKeySize)
    (hv : ¬ v.length > cfg.maxValueSize)
    (hd : ¬ s.dirtyBytes + (24 + k.length + v.length) > cfg.maxLogLength) :
    lsmPut cfg sf s k v =
      ({ memtable := mtInsert s.memtable k { key := k, value := v, timestamp := s.clock },
         store := s.store,
         wal := s.wal ++ [{ key := k, value := v, timestamp := s.clock }],
         dirtyBytes := s.dirtyBytes + (24 + k.length + v.length),
         clock := s.clock + 1 }, none) := by
  simp only [lsmPut, logMutation, walWrite, hk, hv, if_neg, not_false_iff, reduceIte,
    DiskEntry.size]
  have hd1 : ¬ s.dirtyBytes + (24 + k.length + v.length) > cfg.maxLogLength := hd
  simp [hd1]

/-- C9 (amended): `Lsm::contains` answers `true` for a key whose only live
trace is a tombstone in the memtable: after `put(x, v)` followed by
`delete(x)` with no intervening flush, the memtable holds the tombstone
record for `x`, `get(x)` is absent, and `contains(x)` is `true`. -/
theorem contains_after_put_delete (cfg : Config) (s : LsmState) (x v : Bytes)
    (hk : x.length ≤ cfg.maxKeySize) (hv : v.length ≤ cfg.maxValueSize)
    (hd : s.dirtyBytes + (48 + 2 * x.length + v.length) ≤ cfg.maxLogLength) :
    mtLookup ((lsmDelete cfg none (lsmPut cfg none s x v).1 x).1).memtable x =
      some { key := x, value := [], timestamp := s.clock + 1 } ∧
    lsmContains (lsmDelete cfg none (lsmPut cfg none s x v).1 x).1 x = true ∧
    lsmGet (lsmDelete cfg none (lsmPut cfg none s x v).1 x).1 x = none := by
  have hk1 : ¬ x.length > cfg.maxKeySize := by omega
  have hv1 : ¬ v.length > cfg.maxValueSize := by omega
  have hd1 : ¬ s.dirtyBytes + (24 + x.length + v.length) > cfg.maxLogLength := by omega
  have h1 := lsmPut_no_flush cfg none s x v hk1 hv1 hd1
  rw [h1]
  set s1 : LsmState :=
    { memtable := mtInsert s.memtable x { key := x, value := v, timestamp := s.clock },
      store := s.store,
      wal := s.wal ++ [{ key := x, value := v, timestamp := s.clock }],
      dirtyBytes := s.dirtyBytes + (24 + x.length + v.length),
      clock := s.clock + 1 } with hs1
  have hcont : lsmContains s1 x = true := by
    simp [lsmContains, mtContains, hs1, mtLookup_mtInsert_self]
  have hv2 : ¬ ([] : Bytes).length > cfg.maxValueSize := by simp
  have hd2 : ¬ s1.dirtyBytes + (24 + x.length + ([] : Bytes).length) > cfg.maxLogLength := by
    rw [hs1]; simp; omega
  have h2 := lsmPut_no_flush cfg none s1 x [] hk1 hv2 hd2
  have hdel : lsmDelete cfg none s1 x = lsmPut cfg none s1 x [] := by
    simp [lsmDelete, hcont]
  rw [hdel, h2]
  refine ⟨?_, ?_, ?_⟩
  · simp [hs1, mtLookup_mtInsert_self]
  · simp [lsmContains, mtContains, hs1, mtLookup_mtInsert_self]
  · simp [lsmGet, hs1, mtLookup_mtInsert_self]

/-- C9 amended-claim witness: the concrete run of `put([1],[2]); delete([1])`
under the default configuration. -/
theorem contains_after_put_delete_witness :
    ([1] : Bytes).length ≤ ({} : Config).maxKeySize ∧
    ([2] : Bytes).length ≤ ({} : Config).maxValueSize ∧
    lsmInit.dirtyBytes + (48 + 2 * ([1] : Bytes).length + ([2] : Bytes).length) ≤
      ({} : Config).maxLogLength ∧
    lsmContains (lsmDelete {} none (lsmPut {} none lsmInit [1] [2]).1 [1]).1 [1] = true :=
  ⟨by decide, by decide, by decide,
    (contains_after_put_delete {} lsmInit [1] [2] (by decide) (by decide) (by decide)).2.1⟩

/-- `takeWhile` keeps exactly a good block when the element right after it
fails the predicate. -/
theorem takeWhile_good_block (p : DiskEntry → Bool) (good : List DiskEntry)
    (bad : DiskEntry) (rest : List DiskEntry)
    (hg : ∀ e ∈ good, p e = true) (hb : p bad = false) :
    (good ++ bad :: rest).takeWhile p = good := by
  induction good with
  | nil => simp [List.takeWhile, hb]
  | cons e es ih =>
      have he : p e = true := hg e (by simp)
      have ih1 := ih (fun x hx => hg x (by simp [hx]))
      simp [List.takeWhile, he, ih1]

/-- The replay loop consumes exactly the good block: it folds the good
records into the memtable and accumulates their sizes, stopping at the first
record whose recomputed checksum differs from the stored one. -/
theorem replayWal_good_block (crcFn : Bytes → Bytes → Nat)
    (good : List DiskEntry) (bad : DiskEntry) (rest : List DiskEntry)
    (hg : ∀ e ∈ good, crcFn e.key e.value = e.crc)
    (hb : crcFn bad.key bad.value ≠ bad.crc) :
    ∀ mt rec, replayWal crcFn (good ++ bad :: rest) mt rec =
      (good.foldl (fun m e => mtInsert m e.key e) mt,
       rec + (good.map DiskEntry.size).sum) := by
  induction good with
  | nil => intro mt rec; simp [replayWal, hb]
  | cons e es ih =>
      intro mt rec
      have he : crcFn e.key e.value = e.crc := hg e (by simp)
      have ih1 := ih (fun x hx => hg x (by simp [hx]))
      simp [replayWal, he, ih1, Nat.add_assoc]

/-- Looking a key up after folding records into a memtable finds the last
folded record with that key, else falls back to the original memtable. -/
theorem mtLookup_foldl_insert (es : List DiskEntry) :
    ∀ (mt : Memtable) (k : Bytes),
      mtLookup (es.foldl (fun m e => mtInsert m e.key e) mt) k =
        match es.reverse.find? (fun e => e.key = k) with
        | some e => some e
        | none => mtLookup mt k := by
  induction es with
  | nil => intro mt k; simp
  | cons e es ih =>
      intro mt k
      rw [List.foldl_cons, ih (mtInsert mt e.key e) k, List.reverse_cons,
        List.find?_append]
      cases hfind : es.reverse.find? (fun x => decide (x.key = k)) with
      | some x => simp [hfind]
      | none =>
          by_cases hek : e.key = k
          · subst hek
            simp [hfind, mtLookup_mtInsert_self, List.find?]
          · have hne : k ≠ e.key := Ne.symm hek
            simp [hfind, mtLookup_mtInsert_ne mt e.key k e hne, List.find?, hek]

/-- Folding records into a sorted memtable keeps it sorted. -/
theorem sortedKeys_foldl_insert (es : List DiskEntry) :
    ∀ mt : Memtable, SortedKeys mt →
      SortedKeys (es.foldl (fun m e => mtInsert m e.key e) mt) := by
  induction es with
  | nil => intro mt h; simpa using h
  | cons e es ih =>
      intro mt h
      exact ih _ (sortedKeys_mtInsert mt e.key e h)

/-- C2: recovery at open replays the WAL from offset zero and stops at the
first record whose recomputed checksum differs from the stored one; the WAL
is truncated (with fsync) to the total byte length of the good block, and the
memtable holds exactly the good block's records, the last record for a key
winning. -/
theorem recovery_truncates_torn_tail (crcFn : Bytes → Bytes → Nat) (w : WalFile)
    (good : List DiskEntry) (bad : DiskEntry) (rest : List DiskEntry)
    (hw : w.entries = good ++ bad :: rest)
    (hg : ∀ e ∈ good, crcFn e.key e.value = e.crc)
    (hb : crcFn bad.key bad.value ≠ bad.crc) :
    (buildMemtable crcFn w).recovered = (good.map DiskEntry.size).sum ∧
    (buildMemtable crcFn w).wal.entries = good ∧
    (buildMemtable crcFn w).wal.byteSize = (good.map DiskEntry.size).sum ∧
    (buildMemtable crcFn w).truncated = true ∧
    SortedKeys (buildMemtable crcFn w).memtable ∧
    (∀ k, mtLookup (buildMemtable crcFn w).memtable k =
       good.reverse.find? (fun e => e.key = k)) := by
  have hrep := replayWal_good_block crcFn good bad rest hg hb [] 0
  have htw2 : (good ++ bad :: rest).takeWhile
      (fun e => crcFn e.key e.value = e.crc) = good := by
    refine takeWhile_good_block _ good bad rest ?_ ?_
    · intro e he; simpa using hg e he
    · simpa using hb
  have hsz : w.byteSize > 0 + (good.map DiskEntry.size).sum := by
    rw [WalFile.byteSize, hw]
    simp [DiskEntry.size]
    omega
  have hbm : buildMemtable crcFn w =
      { memtable := good.foldl (fun m e => mtInsert m e.key e) [],
        recovered := (good.map DiskEntry.size).sum,
        wal := { entries := good, slack := 0 }, truncated := true } := by
    simp only [buildMemtable]
    rw [hw, htw2, hrep]
    have hlt : (List.map DiskEntry.size good).sum < w.byteSize := by omega
    simp [hlt]
  rw [hbm]
  refine ⟨rfl, rfl, by simp [WalFile.byteSize], rfl, ?_, ?_⟩
  · exact sortedKeys_foldl_insert good [] (by simp [SortedKeys])
  · intro k
    have := mtLookup_foldl_insert good [] k
    rw [this]
    cases good.reverse.find? (fun e => e.key = k) with
    | some e => rfl
    | none => rfl

/-- C2 witness: a concrete WAL whose third record fails its checksum; the
first two are recovered (the second overwriting the first for their shared
key) and the file is truncated to their 52 bytes. -/
theorem recovery_truncates_torn_tail_witness :
    let crcFn : Bytes → Bytes → Nat := fun k v => k.sum + v.sum + 1
    let g1 : DiskEntry := { key := [1], value := [5], timestamp := 0, crc := 7 }
    let g2 : DiskEntry := { key := [1], value := [6], timestamp := 1, crc := 8 }
    let bad : DiskEntry := { key := [2], value := [9], timestamp := 2, crc := 99 }
    let w : WalFile := { entries := [g1, g2, bad], slack := 0 }
    (∀ e ∈ [g1, g2], crcFn e.key e.value = e.crc) ∧
    crcFn bad.key bad.value ≠ bad.crc ∧
    (buildMemtable crcFn w).recovered = 52 ∧
    (buildMemtable crcFn w).truncated = true ∧
    mtLookup (buildMemtable crcFn w).memtable [1] = some g2 := by
  refine ⟨by decide, by decide, ?_, ?_, ?_⟩
  · have h := recovery_truncates_torn_tail (fun k v => k.sum + v.sum + 1)
      { entries := [{ key := [1], value := [5], timestamp := 0, crc := 7 },
                    { key := [1], value := [6], timestamp := 1, crc := 8 },
                    { key := [2], value := [9], timestamp := 2, crc := 99 }], slack := 0 }
      [{ key := [1], value := [5], timestamp := 0, crc := 7 },
       { key := [1], value := [6], timestamp := 1, crc := 8 }]
      { key := [2], value := [9], timestamp := 2, crc := 99 } [] rfl
      (by decide) (by decide)
    rw [h.1]; decide
  · exact (recovery_truncates_torn_tail (fun k v => k.sum + v.sum + 1)
      { entries := [{ key := [1], value := [5], timestamp := 0, crc := 7 },
                    { key := [1], value := [6], timestamp := 1, crc := 8 },
                    { key := [2], value := [9], timestamp := 2, crc := 99 }], slack := 0 }
      [{ key := [1], value := [5], timestamp := 0, crc := 7 },
       { key := [1], value := [6], timestamp := 1, crc := 8 }]
      { key := [2], value := [9], timestamp := 2, crc := 99 } [] rfl
      (by decide) (by decide)).2.2.2.1
  · have h := recovery_truncates_torn_tail (fun k v => k.sum + v.sum + 1)
      { entries := [{ key := [1], value := [5], timestamp := 0, crc := 7 },
                    { key := [1], value := [6], timestamp := 1, crc := 8 },
                    { key := [2], value := [9], timestamp := 2, crc := 99 }], slack := 0 }
      [{ key := [1], value := [5], timestamp := 0, crc := 7 },
       { key := [1], value := [6], timestamp := 1, crc := 8 }]
      { key := [2], value := [9], timestamp := 2, crc := 99 } [] rfl
      (by decide) (by decide)
    rw [h.2.2.2.2.2]; decide

theorem keydirInv_nil : KeydirInv [] := by
  intro k e h
  simp [kdGet] at h

theorem keydirInv_kdPut (kd : Keydir) (k : Bytes) (e : KeydirEntry)
    (hkd : KeydirInv kd) (he : e.points.value ≠ []) :
    KeydirInv (kdPut kd k e) := by
  intro k0 e0 h0
  by_cases hk : k0 = k
  · subst hk
    rcases kdGet_kdPut_self kd k0 e with h1 | ⟨e1, h1, _, h2⟩
    · rw [h0] at h1
      injection h1 with h1
      rw [h1]
      exact he
    · rw [h0] at h2
      injection h2 with h2
      rw [h2]
      exact hkd k0 e1 h1
  · rw [kdGet_kdPut_ne kd k k0 e hk] at h0
    exact hkd k0 e0 h0

theorem keydirInv_kdRemove (kd : Keydir) (k : Bytes) (hkd : KeydirInv kd) :
    KeydirInv (kdRemove kd k) := by
  intro k0 e0 h0
  rw [kdGet_kdRemove] at h0
  by_cases hk : k0 = k
  · simp [hk] at h0
  · rw [if_neg hk] at h0
    exact hkd k0 e0 h0

theorem keydirInv_buildKeydirFromHint (hints : List HintEntry) :
    ∀ kd : Keydir, KeydirInv kd → HintsWF hints →
      KeydirInv (buildKeydirFromHint hints kd) := by
  induction hints with
  | nil => intro kd hkd _; simpa [buildKeydirFromHint] using hkd
  | cons h rest ih =>
      intro kd hkd hwf
      have hstep : KeydirInv
          (if h.valueSz ≠ 0 then kdPut kd h.key (KeydirEntry.ofHintEntry h)
           else kdRemove kd h.key) := by
        by_cases hv : h.valueSz ≠ 0
        · rw [if_pos hv]
          refine keydirInv_kdPut kd h.key _ hkd ?_
          have hlen : h.valueSz = h.points.value.length := hwf h (by simp)
          simp only [KeydirEntry.ofHintEntry]
          intro hcontra
          rw [hcontra] at hlen
          simp at hlen
          exact hv hlen
        · rw [if_neg hv]
          exact keydirInv_kdRemove kd h.key hkd
      have hwf1 : HintsWF rest := fun x hx => hwf x (by simp [hx])
      have := ih _ hstep hwf1
      simpa [buildKeydirFromHint] using this

theorem keydirInv_buildKeydirFromSSTable (run : Run) :
    ∀ (kd : Keydir) (fid : Nat), KeydirInv kd →
      KeydirInv (buildKeydirFromSSTable fid run kd) := by
  induction run with
  | nil => intro kd fid hkd; simpa [buildKeydirFromSSTable] using hkd
  | cons oe rest ih =>
      intro kd fid hkd
      have hstep : KeydirInv
          (if oe.2.value = [] then kdRemove kd oe.2.key
           else kdPut kd oe.2.key (KeydirEntry.ofDiskEntry fid oe.1 oe.2)) := by
        by_cases hv : oe.2.value = []
        · rw [if_pos hv]
          exact keydirInv_kdRemove kd oe.2.key hkd
        · rw [if_neg hv]
          exact keydirInv_kdPut kd oe.2.key _ hkd (by simpa [KeydirEntry.ofDiskEntry] using hv)
      have := ih _ fid hstep
      simpa [buildKeydirFromSSTable] using this

theorem keydirInv_storeSet (newId : Nat) (items : Memtable) :
    ∀ acc : SetResult, KeydirInv acc.keydir →
      KeydirInv (items.foldl (storeSetStep newId) acc).keydir := by
  induction items with
  | nil => intro acc hkd; simpa using hkd
  | cons item rest ih =>
      intro acc hkd
      rw [List.foldl_cons]
      refine ih _ ?_
      by_cases hv : item.2.value = []
      · simpa [storeSetStep, hv] using keydirInv_kdRemove acc.keydir item.1 hkd
      · have := keydirInv_kdPut acc.keydir item.1
          (KeydirEntry.ofDiskEntry newId acc.size item.2) hkd
          (by simpa [KeydirEntry.ofDiskEntry] using hv)
        simpa [storeSetStep, hv] using this

/-- C10: every key-directory mutation path inserts only entries pointing at a
record with a non-empty value and turns every tombstone into a removal: the
memtable flush (`DiskStorage::set`), the rebuild from a hint file, the
rebuild by scanning a run, the post-compaction rebuild (both the hint branch
and the scan branch of `compact_and_merge`), and `HashmapKeydir::put` itself
under that discipline; hence a key-directory lookup never resolves to an
empty value. -/
theorem keydir_updates_preserve_nontombstone (kd : Keydir) (newId : Nat)
    (items : Memtable) (fid : Nat) (run : Run) (hints : List HintEntry)
    (st : StoreState) (ids : List Nat) (wrun : Run) (k : Bytes)
    (e : KeydirEntry) :
    (KeydirInv kd → KeydirInv (storeSet newId items kd).keydir) ∧
    (KeydirInv kd → HintsWF hints → KeydirInv (buildKeydirFromHint hints kd)) ∧
    (KeydirInv kd → KeydirInv (buildKeydirFromSSTable fid run kd)) ∧
    (KeydirInv st.keydir → HintsWF hints →
       KeydirInv (compactAndMerge st ids wrun (some hints)).keydir) ∧
    (KeydirInv st.keydir →
       KeydirInv (compactAndMerge st ids wrun none).keydir) ∧
    (KeydirInv kd → e.points.value ≠ [] → KeydirInv (kdPut kd k e)) := by
  refine ⟨?_, ?_, ?_, ?_, ?_, ?_⟩
  · intro hkd
    exact keydirInv_storeSet newId items { keydir := kd, run := [], hints := [], size := 0 } hkd
  · intro hkd hwf
    exact keydirInv_buildKeydirFromHint hints kd hkd hwf
  · intro hkd
    exact keydirInv_buildKeydirFromSSTable run kd fid hkd
  · intro hkd hwf
    exact keydirInv_buildKeydirFromHint hints st.keydir hkd hwf
  · intro hkd
    exact keydirInv_buildKeydirFromSSTable wrun st.keydir (ids.foldl max 0) hkd
  · intro hkd he
    exact keydirInv_kdPut kd k e hkd he

/-- C10 witness: a flush of one record and one tombstone, a hint-file rebuild
with one live and one tombstone hint, a run scan, a post-compaction rebuild
and a direct put, all starting from the empty key directory, keep the
invariant at a concrete instance. -/
theorem keydir_updates_preserve_nontombstone_witness :
    KeydirInv (storeSet 1
      [([1], { key := [1], value := [5], timestamp := 0 }),
       ([2], { key := [2], value := [], timestamp := 1 })] []).keydir ∧
    HintsWF [HintEntry.ofDiskEntry 2 0 { key := [3], value := [7], timestamp := 2 }] ∧
    KeydirInv (buildKeydirFromHint
      [HintEntry.ofDiskEntry 2 0 { key := [3], value := [7], timestamp := 2 }] []) := by
  have hwf : HintsWF [HintEntry.ofDiskEntry 2 0 { key := [3], value := [7], timestamp := 2 }] := by
    intro h hh
    simp at hh
    simp [hh, HintEntry.ofDiskEntry]
  refine ⟨?_, hwf, ?_⟩
  · exact (keydir_updates_preserve_nontombstone [] 1
      [([1], { key := [1], value := [5], timestamp := 0 }),
       ([2], { key := [2], value := [], timestamp := 1 })] 0 [] []
      { sstables := [], keydir := [] } [] [] []
      (KeydirEntry.ofDiskEntry 0 0 { key := [], value := [9], timestamp := 0 })).1 keydirInv_nil
  · exact (keydir_updates_preserve_nontombstone [] 1 [] 0 []
      [HintEntry.ofDiskEntry 2 0 { key := [3], value := [7], timestamp := 2 }]
      { sstables := [], keydir := [] } [] [] []
      (KeydirEntry.ofDiskEntry 0 0 { key := [], value := [9], timestamp := 0 })).2.1 keydirInv_nil hwf

theorem windowOk_iff (ratio : Nat) (w : List (Nat × Nat)) :
    windowOk ratio w = true ↔
      ∀ q ∈ w.drop 1, q.2 * ratio > (w.headD (0, 0)).2 := by
  rw [windowOk, List.all_eq_true]
  constructor
  · intro h q hq
    simpa using h q hq
  · intro h q hq
    simpa using h q hq

theorem listWindows_find?_some (p : List (Nat × Nat) → Bool) (n : Nat)
    (hn : 0 < n) :
    ∀ (l : List (Nat × Nat)) (w : List (Nat × Nat)),
      (listWindows n l).find? p = some w →
      ∃ i, i + n ≤ l.length ∧ w = (l.drop i).take n ∧ p w = true ∧
        ∀ j, j < i → p ((l.drop j).take n) = false := by
  intro l
  induction l with
  | nil => intro w h; simp [listWindows] at h
  | cons a t ih =>
      intro w h
      by_cases hc : n ≤ (a :: t).length
      · rw [listWindows, if_pos ⟨hc, hn⟩] at h
        cases hp : p ((a :: t).take n) with
        | true =>
            rw [List.find?_cons, hp] at h
            injection h with h
            refine ⟨0, by simpa using hc, by simp [← h], h ▸ hp,
              fun j hj => absurd hj (Nat.not_lt_zero j)⟩
        | false =>
            rw [List.find?_cons, hp] at h
            rcases ih w h with ⟨i, hi1, hi2, hi3, hi4⟩
            refine ⟨i + 1, by simp only [List.length_cons]; omega,
              by simpa using hi2, hi3, ?_⟩
            intro j hj
            cases j with
            | zero => simpa using hp
            | succ j => simpa using hi4 j (by omega)
      · rw [listWindows, if_neg (by intro hx; exact hc hx.1)] at h
        simp at h

theorem listWindows_find?_none (p : List (Nat × Nat) → Bool) (n : Nat)
    (hn : 0 < n) :
    ∀ l : List (Nat × Nat), (listWindows n l).find? p = none →
      ∀ i, i + n ≤ l.length → p ((l.drop i).take n) = false := by
  intro l
  induction l with
  | nil => intro h i hi; simp at hi; omega
  | cons a t ih =>
      intro h i hi
      simp only [List.length_cons] at hi
      by_cases hc : n ≤ (a :: t).length
      · rw [listWindows, if_pos ⟨hc, hn⟩, List.find?_cons] at h
        cases hp : p ((a :: t).take n) with
        | true => rw [hp] at h; simp at h
        | false =>
            rw [hp] at h
            cases i with
            | zero => simpa using hp
            | succ i => simpa using ih h i (by omega)
      · simp only [List.length_cons] at hc; omega

/-- C8: `Compactor::sstable_maintenance` with `W = max(merge_window, 2)` and
`R = merge_ratio` does nothing when it knows fewer than `W` runs; when it
compacts, the compacted ids are a window of `W` consecutive runs of its
ascending-id list, every run after the window's first satisfies
`size_i * R > size_0`, and no earlier window satisfies that; when it does
nothing despite `W` or more runs, no window satisfies it; and a tick
processes one message with at most one compaction. -/
theorem maintenance_selects_first_qualifying_window (cfg : Config)
    (ss : List (Nat × Nat)) :
    (ss.length < max cfg.mergeWindow 2 → sstableMaintenance cfg ss = none) ∧
    (∀ ids, sstableMaintenance cfg ss = some ids →
       ∃ i, i + max cfg.mergeWindow 2 ≤ ss.length ∧
         ids = ((ss.drop i).take (max cfg.mergeWindow 2)).map Prod.fst ∧
         (∀ q ∈ ((ss.drop i).take (max cfg.mergeWindow 2)).drop 1,
            q.2 * cfg.mergeRatio > (((ss.drop i).take (max cfg.mergeWindow 2)).headD (0, 0)).2) ∧
         (∀ j, j < i →
            ¬ ∀ q ∈ ((ss.drop j).take (max cfg.mergeWindow 2)).drop 1,
                q.2 * cfg.mergeRatio > (((ss.drop j).take (max cfg.mergeWindow 2)).headD (0, 0)).2)) ∧
    (sstableMaintenance cfg ss = none → max cfg.mergeWindow 2 ≤ ss.length →
       ∀ i, i + max cfg.mergeWindow 2 ≤ ss.length →
         ¬ ∀ q ∈ ((ss.drop i).take (max cfg.mergeWindow 2)).drop 1,
             q.2 * cfg.mergeRatio > (((ss.drop i).take (max cfg.mergeWindow 2)).headD (0, 0)).2) ∧
    (∀ msg, (tickCompactions cfg ss msg).length ≤ 1) := by
  have hn : 0 < max cfg.mergeWindow 2 := by omega
  refine ⟨?_, ?_, ?_, ?_⟩
  · intro h
    simp [sstableMaintenance, h]
  · intro ids h
    rw [sstableMaintenance] at h
    by_cases hlen : ss.length < max cfg.mergeWindow 2
    · simp [hlen] at h
    · rw [if_neg hlen, Option.map_eq_some'] at h
      rcases h with ⟨w, hw, hids⟩
      rcases listWindows_find?_some _ _ hn ss w hw with ⟨i, hi1, hi2, hi3, hi4⟩
      refine ⟨i, hi1, by rw [← hids, hi2], ?_, ?_⟩
      · rw [← hi2]
        exact (windowOk_iff cfg.mergeRatio w).mp hi3
      · intro j hj hcontra
        have := hi4 j hj
        rw [← windowOk_iff cfg.mergeRatio _] at hcontra
        rw [this] at hcontra
        exact Bool.false_ne_true hcontra
  · intro h hlen i hi hcontra
    rw [sstableMaintenance, if_neg (by omega), Option.map_eq_none'] at h
    have := listWindows_find?_none _ _ hn ss h i hi
    rw [← windowOk_iff cfg.mergeRatio _] at hcontra
    rw [this] at hcontra
    exact Bool.false_ne_true hcontra
  · intro msg
    cases msg with
    | newSSTable id sz =>
        simp only [tickCompactions]
        cases sstableMaintenance cfg (sizesInsert ss id sz) <;> simp
    | heartBeat =>
        simp only [tickCompactions]
        cases sstableMaintenance cfg ss <;> simp
    | stop => simp [tickCompactions]

/-- C8 witness: with `merge_window = 3`, `merge_ratio = 3` and runs of sizes
200, 50, 40, 41, 39, maintenance skips the window led by 200 (50·3 ≤ 200)
and compacts exactly the next window `[2, 3, 4]`. -/
theorem maintenance_selects_first_qualifying_window_witness :
    sstableMaintenance { mergeWindow := 3, mergeRatio := 3 }
        [(1, 200), (2, 50), (3, 40), (4, 41), (5, 39)] = some [2, 3, 4] ∧
    ∃ i, i + max ({ mergeWindow := 3, mergeRatio := 3 } : Config).mergeWindow 2 ≤
        ([(1, 200), (2, 50), (3, 40), (4, 41), (5, 39)] : List (Nat × Nat)).length ∧
      [2, 3, 4] = ((([(1, 200), (2, 50), (3, 40), (4, 41), (5, 39)] : List (Nat × Nat)).drop i).take
        (max ({ mergeWindow := 3, mergeRatio := 3 } : Config).mergeWindow 2)).map Prod.fst :=
  ⟨by decide,
   by
     rcases (maintenance_selects_first_qualifying_window
         { mergeWindow := 3, mergeRatio := 3 }
         [(1, 200), (2, 50), (3, 40), (4, 41), (5, 39)]).2.1 [2, 3, 4] (by decide) with
       ⟨i, hi1, hi2, _, _⟩
     exact ⟨i, hi1, hi2⟩⟩

theorem rustBinarySearchGo_some_mem (l : List Bytes) (k : Bytes) :
    ∀ (fuel left right i : Nat), right ≤ l.length →
      rustBinarySearchGo l k fuel left right = some i → k ∈ l := by
  intro fuel
  induction fuel with
  | zero => intro left right i _ h; simp [rustBinarySearchGo] at h
  | succ n ih =>
      intro left right i hr h
      rw [rustBinarySearchGo] at h
      by_cases hlr : left < right
      · rw [if_pos hlr] at h
        set mid := left + (right - left) / 2 with hmid
        have hmlt : mid < right := by
          have : (right - left) / 2 < right - left := Nat.div_lt_self (by omega) (by omega)
          omega
        by_cases h1 : l.getD mid [] < k
        · rw [if_pos h1] at h
          exact ih (mid + 1) right i hr h
        · rw [if_neg h1] at h
          by_cases h2 : k < l.getD mid []
          · rw [if_pos h2] at h
            exact ih left mid i (by omega) h
          · rw [if_neg h2] at h
            have heq : l.getD mid [] = k := le_antisymm (not_lt.mp h2) (not_lt.mp h1)
            have hml : mid < l.length := by omega
            have : l.getD mid [] ∈ l := by
              rw [List.getD_eq_getElem l [] hml]
              exact List.getElem_mem hml
            rw [heq] at this
            exact this
      · rw [if_neg hlr] at h
        simp at h

theorem rustBinarySearch_none_of_not_mem (l : List Bytes) (k : Bytes)
    (h : k ∉ l) : rustBinarySearch l k = none := by
  cases hres : rustBinarySearch l k with
  | none => rfl
  | some i =>
      exact absurd (rustBinarySearchGo_some_mem l k (l.length + 1) 0 l.length i
        (le_refl _) hres) h

/-- With every accumulated key strictly below every memtable key, the overlay
appends exactly the non-tombstone memtable keys: pushed keys are new, and a
tombstone's key is absent from the list so its binary search finds nothing. -/
theorem listKeysOverlay_append (mt : Memtable) :
    ∀ keys : List Bytes, SortedKeys mt →
      (∀ a ∈ keys, ∀ p ∈ mt, a < p.1) →
      listKeysOverlay keys mt =
        keys ++ (mt.filter (fun p => p.2.value ≠ [])).map Prod.fst := by
  induction mt with
  | nil => intro keys _ _; simp [listKeysOverlay]
  | cons p rest ih =>
      obtain ⟨k, e⟩ := p
      intro keys hs hlt
      rw [SortedKeys, List.pairwise_cons] at hs
      obtain ⟨hall, hrest⟩ := hs
      by_cases hv : e.value = []
      · have hnot : k ∉ keys := by
          intro hk
          exact absurd (hlt k hk (k, e) (by simp)) (lt_irrefl k)
        have hb := rustBinarySearch_none_of_not_mem keys k hnot
        rw [listKeysOverlay, if_neg (by simpa using hv), hb]
        have hlt1 : ∀ a ∈ keys, ∀ q ∈ rest, a < q.1 :=
          fun a ha q hq => hlt a ha q (by simp [hq])
        rw [ih keys hrest hlt1]
        simp [hv]
      · rw [listKeysOverlay, if_pos (by simpa using hv)]
        have hlt1 : ∀ a ∈ keys ++ [k], ∀ q ∈ rest, a < q.1 := by
          intro a ha q hq
          rcases List.mem_append.mp ha with ha | ha
          · exact lt_trans (hlt a ha (k, e) (by simp)) (hall q hq)
          · simp at ha
            rw [ha]
            exact hall q hq
        rw [ih (keys ++ [k]) hrest hlt1]
        simp [hv]

/-- A binding found by `mtLookup` is a member of the memtable. -/
theorem mtLookup_mem (mt : Memtable) (k : Bytes) (e : DiskEntry)
    (h : mtLookup mt k = some e) : (k, e) ∈ mt := by
  induction mt with
  | nil => simp [mtLookup] at h
  | cons p rest ih =>
      obtain ⟨k1, e1⟩ := p
      rw [mtLookup] at h
      by_cases hk : k1 = k
      · rw [if_pos hk] at h
        injection h with h
        simp [← hk, ← h]
      · rw [if_neg hk] at h
        simp [ih h]

/-- In a key-sorted memtable, membership determines the lookup result. -/
theorem mtLookup_of_mem (mt : Memtable) (k : Bytes) (e : DiskEntry)
    (hs : SortedKeys mt) (h : (k, e) ∈ mt) : mtLookup mt k = some e := by
  induction mt with
  | nil => simp at h
  | cons p rest ih =>
      obtain ⟨k1, e1⟩ := p
      rw [SortedKeys, List.pairwise_cons] at hs
      obtain ⟨hall, hrest⟩ := hs
      rcases List.mem_cons.mp h with h | h
      · injection h with h1 h2
        rw [mtLookup, if_pos (by rw [h1]), h2]
      · have hk : k1 ≠ k := by
          intro hk
          have := hall (k, e) h
          rw [hk] at this
          exact absurd this (lt_irrefl k)
        rw [mtLookup, if_neg hk]
        exact ih hrest h

/-- Executing a within-limits, within-budget workload against a state whose
key directory is empty never flushes: the key directory stays empty, the
memtable stays key-sorted, and its value view evolves exactly by `liveStep`
per operation. -/
theorem execOps_no_flush (cfg : Config) :
    ∀ (ops : List Op) (s : LsmState) (m : Bytes → Option Bytes),
      s.store.keydir = [] →
      SortedKeys s.memtable →
      (∀ k, (mtLookup s.memtable k).map DiskEntry.value = m k) →
      (∀ op ∈ ops, opKeyLen op ≤ cfg.maxKeySize ∧ opValLen op ≤ cfg.maxValueSize) →
      s.dirtyBytes + (ops.map opBytes).sum ≤ cfg.maxLogLength →
      (execOps cfg s ops).store.keydir = [] ∧
      SortedKeys (execOps cfg s ops).memtable ∧
      (∀ k, (mtLookup (execOps cfg s ops).memtable k).map DiskEntry.value =
        ops.foldl liveStep m k) := by
  intro ops
  induction ops with
  | nil =>
      intro s m h1 h2 h3 _ _
      exact ⟨h1, h2, by simpa [execOps] using h3⟩
  | cons op rest ih =>
      intro s m h1 h2 h3 hlim hbud
      have hlimr : ∀ o ∈ rest, opKeyLen o ≤ cfg.maxKeySize ∧ opValLen o ≤ cfg.maxValueSize :=
        fun o ho => hlim o (by simp [ho])
      obtain ⟨hk, hv⟩ := hlim op (by simp)
      rw [List.map_cons, List.sum_cons] at hbud
      have hexec : execOps cfg s (op :: rest) = execOps cfg (execOp cfg s op) rest := rfl
      have hfold : (op :: rest).foldl liveStep m = rest.foldl liveStep (liveStep m op) := rfl
      rw [hexec, hfold]
      cases op with
      | put k v =>
          simp only [opKeyLen] at hk
          simp only [opValLen] at hv
          simp only [opBytes] at hbud
          have hput := lsmPut_no_flush cfg none s k v (by omega) (by omega) (by omega)
          have hstep : execOp cfg s (Op.put k v) = (lsmPut cfg none s k v).1 := rfl
          rw [hstep, hput]
          refine ih _ (liveStep m (Op.put k v)) h1 (sortedKeys_mtInsert _ k _ h2) ?_ hlimr ?_
          · intro x
            by_cases hx : x = k
            · subst hx
              rw [mtLookup_mtInsert_self]
              simp [liveStep]
            · rw [mtLookup_mtInsert_ne _ _ _ _ hx]
              simp [liveStep, hx, h3 x]
          · simp
            omega
      | del k =>
          simp only [opKeyLen] at hk
          simp only [opBytes] at hbud
          have hkd : kdContains s.store.keydir k = false := by
            rw [h1]
            simp [kdContains, kdGet]
          cases hmk : m k with
          | none =>
              have hml : mtLookup s.memtable k = none := by
                have := h3 k
                rw [hmk] at this
                exact Option.map_eq_none'.mp this
              have hcont : lsmContains s k = false := by
                simp [lsmContains, mtContains, hml, hkd]
              have hstep : execOp cfg s (Op.del k) = s := by
                simp [execOp, lsmDelete, hcont]
              rw [hstep]
              refine ih s (liveStep m (Op.del k)) h1 h2 ?_ hlimr (by omega)
              intro x
              by_cases hx : x = k
              · subst hx
                rw [hml]
                simp [liveStep, hmk]
              · simp [liveStep, hx, h3 x]
          | some w =>
              have hml : ∃ e, mtLookup s.memtable k = some e := by
                have := h3 k
                rw [hmk] at this
                rcases Option.map_eq_some'.mp this with ⟨e, he, _⟩
                exact ⟨e, he⟩
              rcases hml with ⟨e, he⟩
              have hcont : lsmContains s k = true := by
                simp [lsmContains, mtContains, he]
              have hput := lsmPut_no_flush cfg none s k [] (by omega)
                (by simp) (by simp; omega)
              have hstep : execOp cfg s (Op.del k) = (lsmPut cfg none s k []).1 := by
                simp [execOp, lsmDelete, hcont]
              rw [hstep, hput]
              refine ih _ (liveStep m (Op.del k)) h1 (sortedKeys_mtInsert _ k _ h2) ?_ hlimr ?_
              · intro x
                by_cases hx : x = k
                · subst hx
                  rw [mtLookup_mtInsert_self]
                  simp [liveStep, hmk]
                · rw [mtLookup_mtInsert_ne _ _ _ _ hx]
                  simp [liveStep, hx, h3 x]
              · simp
                omega

/-- C5 (amended): for a crash-free single-writer workload whose keys and
values are within the configured limits and whose total encoded bytes stay at
or below `max_log_length` (so no flush occurs), `list_keys()` is sorted, free
of duplicates, and holds exactly the keys whose most recent operation is a
put with a non-empty value. -/
theorem list_keys_flush_free_exact (cfg : Config) (ops : List Op)
    (hlim : ∀ op ∈ ops, opKeyLen op ≤ cfg.maxKeySize ∧ opValLen op ≤ cfg.maxValueSize)
    (hbud : (ops.map opBytes).sum ≤ cfg.maxLogLength) :
    List.Sorted (· < ·) (lsmListKeys (execOps cfg lsmInit ops)) ∧
    (lsmListKeys (execOps cfg lsmInit ops)).Nodup ∧
    ∀ k, k ∈ lsmListKeys (execOps cfg lsmInit ops) ↔
      ∃ v, liveMap ops k = some v ∧ v ≠ [] := by
  obtain ⟨hkd, hsort, hmap⟩ := execOps_no_flush cfg ops lsmInit (fun _ => none)
    rfl (by simp [SortedKeys, lsmInit]) (fun k => by simp [lsmInit, mtLookup])
    hlim (by simpa [lsmInit] using hbud)
  have hlk : lsmListKeys (execOps cfg lsmInit ops) =
      ((execOps cfg lsmInit ops).memtable.filter
        (fun p => p.2.value ≠ [])).map Prod.fst := by
    have h0 : List.insertionSort (· ≤ ·)
        (kdKeys (execOps cfg lsmInit ops).store.keydir) = [] := by
      rw [hkd]; rfl
    rw [lsmListKeys, h0,
      listKeysOverlay_append _ [] hsort (fun a ha => by simp at ha)]
    simp
  have hsorted : List.Sorted (· < ·) (lsmListKeys (execOps cfg lsmInit ops)) := by
    rw [hlk, List.Sorted, List.pairwise_map]
    exact List.Pairwise.filter _ hsort
  refine ⟨hsorted, List.Pairwise.imp (fun h => ne_of_lt h) hsorted, ?_⟩
  intro k
  rw [hlk]
  constructor
  · intro hkmem
    rcases List.mem_map.mp hkmem with ⟨p, hp, hpk⟩
    rcases List.mem_filter.mp hp with ⟨hpmem, hpv⟩
    have hlook : mtLookup (execOps cfg lsmInit ops).memtable p.1 = some p.2 :=
      mtLookup_of_mem _ _ _ hsort (by simpa using hpmem)
    refine ⟨p.2.value, ?_, by simpa using hpv⟩
    have := hmap p.1
    rw [hlook] at this
    rw [← hpk, liveMap, ← this]
    rfl
  · rintro ⟨v, hvm, hvne⟩
    have hm := hmap k
    rw [liveMap] at hvm
    rw [hvm] at hm
    rcases Option.map_eq_some'.mp hm with ⟨e, he, hev⟩
    have hmem := mtLookup_mem _ _ _ he
    exact List.mem_map.mpr ⟨(k, e),
      List.mem_filter.mpr ⟨hmem, by simp [hev, hvne]⟩, rfl⟩

/-- C5 amended-claim witness: the workload `put [1] [5]; put [2] [6];
delete [1]; delete [3]` under the default configuration is within limits and
budget, and `list_keys` is exactly `[[2]]`. -/
theorem list_keys_flush_free_exact_witness :
    (∀ op ∈ ([Op.put [1] [5], Op.put [2] [6], Op.del [1], Op.del [3]] : List Op),
       opKeyLen op ≤ ({} : Config).maxKeySize ∧ opValLen op ≤ ({} : Config).maxValueSize) ∧
    (([Op.put [1] [5], Op.put [2] [6], Op.del [1], Op.del [3]] : List Op).map opBytes).sum ≤
      ({} : Config).maxLogLength ∧
    lsmListKeys (execOps {} lsmInit
      [Op.put [1] [5], Op.put [2] [6], Op.del [1], Op.del [3]]) = [[2]] ∧
    ([2] ∈ lsmListKeys (execOps {} lsmInit
      [Op.put [1] [5], Op.put [2] [6], Op.del [1], Op.del [3]]) ↔
        ∃ v, liveMap [Op.put [1] [5], Op.put [2] [6], Op.del [1], Op.del [3]] [2] = some v ∧
          v ≠ []) :=
  ⟨by decide, by decide, by decide,
   (list_keys_flush_free_exact {}
     [Op.put [1] [5], Op.put [2] [6], Op.del [1], Op.del [3]]
     (by decide) (by decide)).2.2 [2]⟩

end LsmLib

